import Mathlib

/-!
# Verification of the Interactive Shark Taxonomy tool (`app.py`)

A shallow embedding of the data-handling core of `app.py`:

* the taxonomic data model (six required string columns plus the derived
  `Full_Species` display field),
* `load_data` (column validation and per-column string coercion/trimming),
* `apply_filters` (filter by the topmost level that has a selection),
* the contiguity check on the active levels,
* `build_horizontal_taxonomic_tree` / `add_branch` (recursive construction
  of the graphviz node/edge description),
* `count_visible_species` and the render block,
* preset save / pending-preset load.

Streamlit/graphviz presentation details (widget layout, node colours and
labels, image export) are not part of any verified property and are not
modelled; the node identifiers (`f"{lvl}_{item}"`, injectively modelled as
`Level × String` pairs since the six level names are never prefixes of one
another) and the edge list are modelled exactly.
-/

/-- The six taxonomic hierarchy levels, in canonical order
(`LEVELS` in `app.py`). -/
inductive Level : Type
  | Class
  | Subclass
  | Order
  | Family
  | Genus
  | Species
deriving DecidableEq, Repr, Fintype

/-- The canonical ordering `LEVELS = ["Class", ..., "Species"]`. -/
def LEVELS : List Level :=
  [.Class, .Subclass, .Order, .Family, .Genus, .Species]

/-- Position of a level in the canonical ordering (`LEVELS.index(l)`). -/
def levelIdx : Level → Nat
  | .Class => 0
  | .Subclass => 1
  | .Order => 2
  | .Family => 3
  | .Genus => 4
  | .Species => 5

/-- The column-name string of a level. -/
def levelName : Level → String
  | .Class => "Class"
  | .Subclass => "Subclass"
  | .Order => "Order"
  | .Family => "Family"
  | .Genus => "Genus"
  | .Species => "Species"

/-- The list of required column names (`LEVELS` as strings in `app.py`). -/
def LEVEL_NAMES : List String := LEVELS.map levelName

/-- One record of the loaded table: the six required string columns.
(`Full_Species` is derived, see `fullSpecies`.) -/
structure Row where
  Class : String
  Subclass : String
  Order : String
  Family : String
  Genus : String
  Species : String
deriving DecidableEq, Repr

/-- Column access `row[lvl]` on a loaded record. -/
def col : Level → Row → String
  | .Class, r => r.Class
  | .Subclass, r => r.Subclass
  | .Order, r => r.Order
  | .Family, r => r.Family
  | .Genus, r => r.Genus
  | .Species, r => r.Species

/-- The derived `Full_Species` column:
`df["Full_Species"] = df["Genus"] + " " + df["Species"]` (line 68),
computed after the per-column trimming, on a table that is never mutated
afterwards. -/
def fullSpecies (r : Row) : String := r.Genus ++ " " ++ r.Species

/-- The per-level multiselect state: `st.session_state[f"sel_{lvl.lower()}"]`. -/
abbrev Sel := Level → List String

/-- The value a row is matched against when filtering at a level:
`Full_Species` for `Species`, the raw column otherwise (lines 129-132 and
318-321). -/
def filterVal (lvl : Level) (r : Row) : String :=
  if lvl = Level.Species then fullSpecies r else col lvl r

/-! ## load_data (lines 56-69)

An input spreadsheet is modelled as the list of its (raw, untrimmed) column
names together with its rows; a raw row is a cell lookup keyed by the
trimmed column name (pandas' column renaming `df.columns.str.strip()`
relabels the columns but keeps each cell attached to its column, so lookup
by trimmed name is the faithful view).  Cells are modelled as the strings
pandas' `astype(str)` produces. -/

structure RawTable where
  cols : List String
  rows : List (String → String)

/-- Python's `str.strip()` (and pandas' `.str.strip()`): remove leading and
trailing whitespace. -/
def strip (s : String) : String :=
  ⟨((s.data.dropWhile Char.isWhitespace).reverse.dropWhile
      Char.isWhitespace).reverse⟩

/-- `load_data` (lines 56-69): trim the column names, abort (`st.error` +
`st.stop`, modelled as `none`) when any of the six required columns is
missing, otherwise coerce every required column to trimmed strings and
return the table.  The derived `Full_Species` column is `fullSpecies`. -/
def load_data (t : RawTable) : Option (List Row) :=
  let cols := t.cols.map strip
  let missing := LEVEL_NAMES.filter (fun c => !cols.contains c)
  if missing = [] then
    some (t.rows.map (fun f =>
      { Class := strip (f "Class")
        Subclass := strip (f "Subclass")
        Order := strip (f "Order")
        Family := strip (f "Family")
        Genus := strip (f "Genus")
        Species := strip (f "Species") }))
  else
    none

/-! ## apply_filters (lines 118-133) -/

/-- The loop body of `apply_filters`: walk the levels in canonical order;
the first level with a non-empty selection filters the table and returns
immediately; if no level has a selection, return the table unchanged. -/
def applyFiltersFrom (sel : Sel) (df : List Row) : List Level → List Row
  | [] => df
  | lvl :: rest =>
    if sel lvl = [] then applyFiltersFrom sel df rest
    else df.filter (fun r => decide (filterVal lvl r ∈ sel lvl))

/-- `apply_filters` (lines 118-133). -/
def apply_filters (sel : Sel) (df : List Row) : List Row :=
  applyFiltersFrom sel df LEVELS

/-! ## Contiguity check on the active levels (lines 249-252) -/

/-- Python's `min` over a non-empty list (the `[]` case is never reached:
the check guards on `idx` being non-empty). -/
def minL : List Nat → Nat
  | [] => 0
  | x :: xs => xs.foldl min x

/-- Python's `max` over a non-empty list. -/
def maxL : List Nat → Nat
  | [] => 0
  | x :: xs => xs.foldl max x

/-- Lines 249-252: `idx = [LEVELS.index(l) for l in active]`; abort
(`st.error` + `st.stop`) iff `idx` is non-empty and differs from
`list(range(min(idx), max(idx) + 1))`. -/
def contiguity_abort (active : List Level) : Bool :=
  let idx := active.map levelIdx
  decide (¬idx = []) &&
    decide (¬idx = List.range' (minL idx) (maxL idx + 1 - minL idx))

/-! ## Tree construction (lines 257-332)

`build_horizontal_taxonomic_tree` produces a graphviz `Digraph`; the
verification-relevant content is the list of node identifiers
(`f"{lvl}_{item}"`, modelled injectively as the pair `(lvl, item)` since no
level name is a prefix of another) and the list of edges, in emission
order.  `drawn_nodes` coincides with the set of node ids passed to
`dot.node`, so a single `nodes` list serves as both.  Node styling
(labels, colours, the highlight of `highlighted_species`) does not affect
which nodes and edges exist and is not modelled. -/

/-- Accumulated graph state: `drawn_nodes` (in `dot.node` call order) and
the `dot.edge` calls in order. -/
structure GState where
  nodes : List (Level × String)
  edges : List ((Level × String) × (Level × String))
deriving DecidableEq, Repr

/-- `pandas.Series.unique`: the distinct values in first-occurrence order.
`seen` accumulates the values already emitted. -/
def uniqueAux {α : Type} [DecidableEq α] (seen : List α) : List α → List α
  | [] => []
  | x :: xs =>
    if x ∈ seen then uniqueAux seen xs
    else x :: uniqueAux (seen ++ [x]) xs

/-- `current_df[lvl].unique()` (line 274): the distinct values of a column
in first-occurrence order. -/
def colItems (df : List Row) (lvl : Level) : List String :=
  uniqueAux [] (df.map (col lvl))

/-- The `for next_item in child_df[next_lvl].unique(): dot.edge(...)` loops
(lines 312-314 and 324-326): append one edge from `nodeId` to each
`(next, w)` for `w` in `ws`, in order. -/
def addEdgesFrom (nodeId : Level × String) (next : Level) (ws : List String)
    (s : GState) : GState :=
  { s with edges := s.edges ++ ws.map (fun w => (nodeId, (next, w))) }

/-- The `for item in items` loop body of `add_branch` (lines 276-327),
with the recursive `add_branch(child_df, level_idx + 1)` call abstracted
as `recur`.  For each item: draw the `(lvl, item)` node unless already
drawn; then, when a next level exists, either (no selection at the next
level) take the item's group, emit its edges and recurse, or (selection
present) take the group restricted to the selection, and only when it is
non-empty emit its edges and recurse. -/
def add_item_step (sel : Sel) (lvl : Level) (rest : List Level)
    (recur : List Row → GState → GState) (item : String)
    (current : List Row) (s : GState) : GState :=
  let nodeId := (lvl, item)
  let s1 : GState :=
    if nodeId ∈ s.nodes then s else ⟨s.nodes ++ [nodeId], s.edges⟩
  match rest with
  | [] => s1
  | next :: _ =>
    if sel next = [] then
      let child := current.filter (fun r => decide (col lvl r = item))
      recur child (addEdgesFrom nodeId next (colItems child next) s1)
    else
      let child := current.filter (fun r =>
        decide (col lvl r = item) && decide (filterVal next r ∈ sel next))
      if child.isEmpty then s1
      else recur child (addEdgesFrom nodeId next (colItems child next) s1)

/-- The `for item in items` loop: fold `add_item_step` over the items. -/
def add_items (sel : Sel) (lvl : Level) (rest : List Level)
    (recur : List Row → GState → GState) :
    List String → List Row → GState → GState
  | [], _, s => s
  | item :: more, current, s =>
    add_items sel lvl rest recur more current
      (add_item_step sel lvl rest recur item current s)

/-- `add_branch(current_df, level_idx)` (lines 267-327), with the level
index replaced by the suffix of active levels from that index on. -/
def add_branch (sel : Sel) : List Level → List Row → GState → GState
  | [], _, s => s
  | lvl :: rest, current, s =>
    add_items sel lvl rest (fun c t => add_branch sel rest c t)
      (colItems current lvl) current s

/-- The graph description returned by the tree builder: the graph title
(`label` graph attribute) plus the emitted nodes and edges.  The purely
visual graph attributes (`rankdir`, fonts, spline style, ...) are not
modelled. -/
structure TaxoDigraph where
  title : String
  nodes : List (Level × String)
  edges : List ((Level × String) × (Level × String))
deriving DecidableEq, Repr

/-- `build_horizontal_taxonomic_tree(df, active_levels, chart_title)`
(lines 257-332): run `add_branch` from the first active level on the whole
table, starting from an empty graph. -/
def build_horizontal_taxonomic_tree (sel : Sel) (df : List Row)
    (active_levels : List Level) (chart_title : String) : TaxoDigraph :=
  let s := add_branch sel active_levels df ⟨[], []⟩
  { title := chart_title, nodes := s.nodes, edges := s.edges }

/-! ## count_visible_species (lines 382-405) and the render block -/

/-- The pruning loop of `count_visible_species` (lines 393-403): walk the
active levels, stopping at `Species`; at each step look up the selection of
the *next* level and, when non-empty, keep only the rows whose raw value at
that next level is selected.  (Note the loop matches the raw column even
when the next level is `Species`, unlike `add_branch`.)  The `[]` and
singleton-tail non-`Species` cases are unreachable when `Species` is among
the active levels, which the caller guarantees. -/
def cvsLoop (sel : Sel) : List Level → List Row → List Row
  | [], cur => cur
  | lvl :: rest, cur =>
    if lvl = Level.Species then cur
    else
      match rest with
      | [] => cur
      | next :: _ =>
        let cur' :=
          if sel next = [] then cur
          else cur.filter (fun r => decide (col next r ∈ sel next))
        cvsLoop sel rest cur'

/-- `count_visible_species(df, active_levels)` (lines 382-405): `0` when
`Species` is not an active level, otherwise the number of rows surviving
the pruning loop. -/
def count_visible_species (sel : Sel) (df : List Row)
    (active_levels : List Level) : Nat :=
  if Level.Species ∈ active_levels then (cvsLoop sel active_levels df).length
  else 0

/-! ## Session state, presets, render block -/

/-- The session state fields relevant to filtering, presets and
rendering. -/
structure SState where
  chart_title : String
  active_levels : List Level
  sel : Sel
  allFlag : Level → Bool
  render_requested : Bool
  tree_valid : Bool
  confirmed_large_tree : Bool

/-- A preset as stored on disk (lines 210-220): a JSON object that may or
may not carry each key; `save_preset` always writes every key.  Strings,
lists of strings and booleans survive `json.dump`/`json.load` unchanged. -/
structure Preset where
  chart_title : Option String
  active_levels : Option (List Level)
  sel : Level → Option (List String)
  allFlag : Level → Option Bool

/-- The `Save Preset` button body (lines 210-220): snapshot
`chart_title`, `active_levels` and, per level, `sel_<level>` and
`all_<level>`. -/
def save_preset (s : SState) : Preset :=
  { chart_title := some s.chart_title
    active_levels := some s.active_levels
    sel := fun l => some (s.sel l)
    allFlag := fun l => some (s.allFlag l) }

/-- The preset store: one file per name under `presets/`. -/
abbrev PresetStore := String → Option Preset

/-- Saving under a name writes the snapshot at that name
(lines 219-220). -/
def save_to_store (store : PresetStore) (name : String) (s : SState) :
    PresetStore :=
  fun n => if n = name then some (save_preset s) else store n

/-- Applying a pending preset (lines 101-113): each stored field is read
with `preset.get(key, default)`; the tree is invalidated. -/
def apply_pending_preset (p : Preset) (s : SState) : SState :=
  { s with
    chart_title := p.chart_title.getD "Shark Phylogeny"
    active_levels := p.active_levels.getD LEVELS
    sel := fun l => (p.sel l).getD []
    allFlag := fun l => (p.allFlag l).getD false
    render_requested := false
    tree_valid := false }

/-- Pressing `Load` on a named preset (lines 200-203) stores the file's
contents as the pending preset, which the next run applies (lines
101-113); a missing file leaves the state unchanged. -/
def load_from_store (store : PresetStore) (name : String) (s : SState) :
    SState :=
  match store name with
  | some p => apply_pending_preset p s
  | none => s

/-- What the render block (lines 428-456) produces for the user. -/
inductive RenderOutcome
  /-- The block body is skipped entirely: nothing is drawn, no message is
  shown.  This happens when no render is pending or when the filtered
  table is empty (the `if not final_df.empty:` branch has no `else`). -/
  | silence
  /-- The large-tree warning dialog interrupts the render (lines 433-435). -/
  | largeTreeDialog (totalVisible : Nat)
  /-- The tree is built and displayed (lines 437-444). -/
  | rendered (g : TaxoDigraph)
  /-- Modelled from the spec: the "no data" notice §7 of the spec says an
  empty filtered result produces.  No code in `app.py` emits it. -/
  | noDataNotice
deriving DecidableEq, Repr

/-- The render block (lines 428-456): when a render is requested and the
tree is valid, filter the table; on a non-empty result either interrupt
with the large-tree dialog or build and display the tree; on an empty
result do nothing at all. -/
def render_block (s : SState) (df : List Row) : RenderOutcome :=
  if s.render_requested && s.tree_valid then
    let final := apply_filters s.sel df
    if final = [] then RenderOutcome.silence
    else
      let total := count_visible_species s.sel final s.active_levels
      if total > 50 && !s.confirmed_large_tree then
        RenderOutcome.largeTreeDialog total
      else
        RenderOutcome.rendered
          (build_horizontal_taxonomic_tree s.sel final s.active_levels
            s.chart_title)
  else RenderOutcome.silence

/-- Modelled from the spec (claim C2's reading of the builder): the
distinct non-empty path prefixes of the table's rows over the chosen
levels, i.e. for each `i < levels.length` the distinct values of
`[col levels[0] r, ..., col levels[i] r]` over the rows `r`. -/
def specPathPrefixes (levels : List Level) (df : List Row) :
    List (List String) :=
  uniqueAux []
    ((List.range levels.length).flatMap (fun i =>
      df.map (fun r => (levels.take (i + 1)).map (fun l => col l r))))

/-! ## Basic lemmas about the embedded operations -/

theorem mem_uniqueAux {α : Type} [DecidableEq α] (l : List α) :
    ∀ (seen : List α) (x : α), x ∈ uniqueAux seen l ↔ x ∈ l ∧ x ∉ seen := by
  induction l with
  | nil => intro seen x; simp [uniqueAux]
  | cons y ys ih =>
    intro seen x
    simp only [uniqueAux]
    by_cases hy : y ∈ seen
    · rw [if_pos hy, ih]
      constructor
      · rintro ⟨hx, hns⟩; exact ⟨List.mem_cons_of_mem _ hx, hns⟩
      · rintro ⟨hx, hns⟩
        rcases List.mem_cons.mp hx with rfl | hx'
        · exact absurd hy hns
        · exact ⟨hx', hns⟩
    · rw [if_neg hy]
      constructor
      · intro hx
        rcases List.mem_cons.mp hx with rfl | hx'
        · exact ⟨List.mem_cons_self _ _, hy⟩
        · obtain ⟨h1, h2⟩ := (ih _ _).mp hx'
          refine ⟨List.mem_cons_of_mem _ h1, fun hs => h2 ?_⟩
          exact List.mem_append_left _ hs
      · rintro ⟨hx, hns⟩
        rcases List.mem_cons.mp hx with rfl | hx'
        · exact List.mem_cons_self _ _
        · by_cases hxy : x = y
          · exact hxy ▸ List.mem_cons_self _ _
          · refine List.mem_cons_of_mem _ ((ih _ _).mpr ⟨hx', fun hs => ?_⟩)
            rcases List.mem_append.mp hs with h | h
            · exact hns h
            · simp at h; exact hxy h

theorem mem_colItems {df : List Row} {lvl : Level} {v : String} :
    v ∈ colItems df lvl ↔ ∃ r ∈ df, col lvl r = v := by
  simp [colItems, mem_uniqueAux, List.mem_map]

theorem applyFiltersFrom_subset (sel : Sel) (df : List Row) (r : Row) :
    ∀ ls : List Level, r ∈ applyFiltersFrom sel df ls → r ∈ df := by
  intro ls
  induction ls with
  | nil => intro h; simpa [applyFiltersFrom] using h
  | cons lvl rest ih =>
    intro h
    simp only [applyFiltersFrom] at h
    by_cases hsel : sel lvl = []
    · exact ih (by rwa [if_pos hsel] at h)
    · rw [if_neg hsel] at h
      exact List.mem_of_mem_filter h

theorem applyFiltersFrom_all_empty (sel : Sel) (df : List Row) :
    ∀ ls : List Level, (∀ l ∈ ls, sel l = []) → applyFiltersFrom sel df ls = df := by
  intro ls
  induction ls with
  | nil => intro _; rfl
  | cons lvl rest ih =>
    intro h
    simp only [applyFiltersFrom]
    rw [if_pos (h lvl (List.mem_cons_self _ _))]
    exact ih (fun l hl => h l (List.mem_cons_of_mem _ hl))

theorem applyFiltersFrom_split (sel : Sel) (df : List Row) (lvl : Level)
    (post : List Level) :
    ∀ pre : List Level, (∀ l ∈ pre, sel l = []) → sel lvl ≠ [] →
      applyFiltersFrom sel df (pre ++ lvl :: post) =
        df.filter (fun r => decide (filterVal lvl r ∈ sel lvl)) := by
  intro pre
  induction pre with
  | nil =>
    intro _ hne
    simp only [List.nil_append, applyFiltersFrom]
    rw [if_neg hne]
  | cons p pre ih =>
    intro hpre hne
    simp only [List.cons_append, applyFiltersFrom]
    rw [if_pos (hpre p (List.mem_cons_self _ _))]
    exact ih (fun l hl => hpre l (List.mem_cons_of_mem _ hl)) hne

/-- The decomposition of the canonical level list around a given level. -/
theorem LEVELS_split (lvl : Level) :
    LEVELS = LEVELS.take (levelIdx lvl) ++ lvl :: LEVELS.drop (levelIdx lvl + 1) := by
  cases lvl <;> rfl

/-- Membership in the canonical prefix before a level is exactly having a
smaller canonical index. -/
theorem mem_take_levelIdx :
    ∀ l l' : Level, l ∈ LEVELS.take (levelIdx l') ↔ levelIdx l < levelIdx l' := by
  decide

/-! ## C3: filtering never adds rows -/

/-- C3: for every table and every filter-selection state, every row of the
table returned by `apply_filters` is a row of the input table (filtering is
a pure subset operation that never adds rows). -/
theorem apply_filters_subset (sel : Sel) (df : List Row) (r : Row)
    (h : r ∈ apply_filters sel df) : r ∈ df :=
  applyFiltersFrom_subset sel df r LEVELS h

/-- Witness for C3 at a concrete table and selection. -/
theorem apply_filters_subset_witness :
    (⟨"C", "A", "O", "F", "G", "s1"⟩ : Row) ∈
      apply_filters
        ((fun l => match l with | Level.Class => ["C"] | _ => []) : Sel)
        [⟨"C", "A", "O", "F", "G", "s1"⟩, ⟨"X", "A", "O", "F", "G", "s2"⟩] ∧
    (⟨"C", "A", "O", "F", "G", "s1"⟩ : Row) ∈
      [(⟨"C", "A", "O", "F", "G", "s1"⟩ : Row), ⟨"X", "A", "O", "F", "G", "s2"⟩] :=
  ⟨by decide,
    apply_filters_subset
      ((fun l => match l with | Level.Class => ["C"] | _ => []) : Sel) _ _
      (by decide)⟩

/-! ## C7: load_data aborts exactly on missing required columns -/

/-- C7: `load_data` aborts (with a message) if and only if at least one of
the six required columns is missing after column-name trimming; otherwise
it returns the table. -/
theorem load_data_abort_iff (t : RawTable) :
    load_data t = none ↔ ∃ c ∈ LEVEL_NAMES, c ∉ t.cols.map strip := by
  simp only [load_data]
  by_cases h : LEVEL_NAMES.filter (fun c => !(t.cols.map strip).contains c) = []
  · rw [if_pos h]
    rw [List.filter_eq_nil_iff] at h
    constructor
    · intro hc; cases hc
    · rintro ⟨c, hc, hnc⟩
      exact absurd (show c ∈ t.cols.map strip by simpa using h c hc) hnc
  · rw [if_neg h]
    refine ⟨fun _ => ?_, fun _ => rfl⟩
    obtain ⟨c, hc⟩ := List.exists_mem_of_ne_nil _ h
    obtain ⟨h1, h2⟩ := List.mem_filter.mp hc
    exact ⟨c, h1, by simpa using h2⟩

/-! ## C8: loaded records are coerced and trimmed, but may be empty -/

/-- C8 counterexample: `load_data` performs no per-record validation; on an
input whose `Class` cell is a blank string it returns a table whose record
has the empty string in the required `Class` column.  This refutes the
claim that every record of a loaded table has a non-empty value in each
required column. -/
theorem load_data_empty_value_cex :
    load_data
        ⟨["Class", "Subclass", "Order", "Family", "Genus", "Species"],
          [fun c => if c = "Class" then " " else "x"]⟩ =
      some [⟨"", "x", "x", "x", "x", "x"⟩] ∧
    col Level.Class (⟨"", "x", "x", "x", "x", "x"⟩ : Row) = "" := by
  decide

/-- C8 (amended): for every table returned by `load_data`, every record
carries, in each required column, the string coercion of the input cell
with surrounding whitespace trimmed — but no non-emptiness check is made,
so a value may be empty. -/
theorem load_data_rows_stripped (t : RawTable) (T : List Row)
    (h : load_data t = some T) :
    T = t.rows.map (fun f =>
      { Class := strip (f "Class")
        Subclass := strip (f "Subclass")
        Order := strip (f "Order")
        Family := strip (f "Family")
        Genus := strip (f "Genus")
        Species := strip (f "Species") }) := by
  simp only [load_data] at h
  by_cases hm : LEVEL_NAMES.filter (fun c => !(t.cols.map strip).contains c) = []
  · rw [if_pos hm] at h
    exact (Option.some_injective _ h).symm
  · rw [if_neg hm] at h
    cases h

/-- Witness for the amended C8 at a concrete input. -/
theorem load_data_rows_stripped_witness :
    load_data
        ⟨["Class", "Subclass", "Order", "Family", "Genus", "Species"],
          [fun c => if c = "Genus" then " Galeus " else "v"]⟩ =
      some [⟨"v", "v", "v", "v", "Galeus", "v"⟩] ∧
    [(⟨"v", "v", "v", "v", "Galeus", "v"⟩ : Row)] =
      List.map (fun f =>
        ({ Class := strip (f "Class")
           Subclass := strip (f "Subclass")
           Order := strip (f "Order")
           Family := strip (f "Family")
           Genus := strip (f "Genus")
           Species := strip (f "Species") } : Row))
        [fun c => if c = "Genus" then " Galeus " else "v"] :=
  ⟨by decide,
    load_data_rows_stripped
      ⟨["Class", "Subclass", "Order", "Family", "Genus", "Species"],
        [fun c => if c = "Genus" then " Galeus " else "v"]⟩ _ (by decide)⟩

/-! ## C4: preset save/load round trip -/

/-- C4: saving the session under a name and then loading that preset
restores the stored selections exactly: `chart_title`, `active_levels`,
and for every level the `sel_<level>` list and the `all_<level>` flag are
the values at save time (whatever state the session had meanwhile). -/
theorem preset_round_trip (store : PresetStore) (name : String)
    (s s₂ : SState) :
    (load_from_store (save_to_store store name s) name s₂).chart_title =
        s.chart_title ∧
    (load_from_store (save_to_store store name s) name s₂).active_levels =
        s.active_levels ∧
    (∀ l, (load_from_store (save_to_store store name s) name s₂).sel l =
        s.sel l) ∧
    (∀ l, (load_from_store (save_to_store store name s) name s₂).allFlag l =
        s.allFlag l) := by
  simp [load_from_store, save_to_store, save_preset, apply_pending_preset]

/-! ## C10: only the topmost non-empty selection filters -/

/-- C10: with no selections `apply_filters` returns the full table; with at
least one non-empty per-level selection it filters only by the topmost
(earliest in `Class..Species` order) level whose selection is non-empty,
and any selection state agreeing with it on that level and all earlier
ones — whatever it selects at lower levels — filters identically. -/
theorem apply_filters_topmost (sel : Sel) (df : List Row) :
    ((∀ l, sel l = []) → apply_filters sel df = df) ∧
    (∀ lvl, sel lvl ≠ [] → (∀ l, levelIdx l < levelIdx lvl → sel l = []) →
      apply_filters sel df =
          df.filter (fun r => decide (filterVal lvl r ∈ sel lvl)) ∧
        (∀ sel' : Sel, (∀ l, levelIdx l ≤ levelIdx lvl → sel' l = sel l) →
          apply_filters sel' df = apply_filters sel df)) := by
  constructor
  · intro h
    exact applyFiltersFrom_all_empty sel df LEVELS (fun l _ => h l)
  · intro lvl hne hearlier
    have hsplit := LEVELS_split lvl
    have heq : apply_filters sel df =
        df.filter (fun r => decide (filterVal lvl r ∈ sel lvl)) := by
      rw [apply_filters, hsplit]
      exact applyFiltersFrom_split sel df lvl _ _
        (fun l hl => hearlier l ((mem_take_levelIdx l lvl).mp hl)) hne
    refine ⟨heq, fun sel' hagree => ?_⟩
    have hlv := hagree lvl (le_refl _)
    have hne' : sel' lvl ≠ [] := by rw [hlv]; exact hne
    have heq' : apply_filters sel' df =
        df.filter (fun r => decide (filterVal lvl r ∈ sel' lvl)) := by
      rw [apply_filters, hsplit]
      refine applyFiltersFrom_split sel' df lvl _ _ (fun l hl => ?_) hne'
      have hlt := (mem_take_levelIdx l lvl).mp hl
      rw [hagree l (le_of_lt hlt)]
      exact hearlier l hlt
    rw [heq', heq, hlv]

/-- Witness for C10: a selection at `Order` and a second selection state
that additionally selects at `Species`; both filter by the `Order`
selection alone. -/
theorem apply_filters_topmost_witness :
    apply_filters
        ((fun l => match l with | Level.Order => ["O1"] | _ => []) : Sel)
        [⟨"C", "A", "O1", "F", "G", "s1"⟩, ⟨"C", "A", "O2", "F", "G", "s2"⟩] =
      List.filter
        (fun r => decide (filterVal Level.Order r ∈ ["O1"]))
        [⟨"C", "A", "O1", "F", "G", "s1"⟩, ⟨"C", "A", "O2", "F", "G", "s2"⟩] ∧
    apply_filters
        ((fun l => match l with
          | Level.Order => ["O1"]
          | Level.Species => ["G s2"]
          | _ => []) : Sel)
        [⟨"C", "A", "O1", "F", "G", "s1"⟩, ⟨"C", "A", "O2", "F", "G", "s2"⟩] =
      apply_filters
        ((fun l => match l with | Level.Order => ["O1"] | _ => []) : Sel)
        [⟨"C", "A", "O1", "F", "G", "s1"⟩, ⟨"C", "A", "O2", "F", "G", "s2"⟩] :=
  ⟨((apply_filters_topmost
      ((fun l => match l with | Level.Order => ["O1"] | _ => []) : Sel)
      [⟨"C", "A", "O1", "F", "G", "s1"⟩, ⟨"C", "A", "O2", "F", "G", "s2"⟩]).2
      Level.Order (by decide) (by decide)).1,
   ((apply_filters_topmost
      ((fun l => match l with | Level.Order => ["O1"] | _ => []) : Sel)
      [⟨"C", "A", "O1", "F", "G", "s1"⟩, ⟨"C", "A", "O2", "F", "G", "s2"⟩]).2
      Level.Order (by decide) (by decide)).2
      ((fun l => match l with
        | Level.Order => ["O1"]
        | Level.Species => ["G s2"]
        | _ => []) : Sel) (by decide)⟩

/-! ## C6: the contiguity check -/

theorem foldl_min_of_le (l : List Nat) :
    ∀ a : Nat, (∀ y ∈ l, a ≤ y) → l.foldl min a = a := by
  induction l with
  | nil => intro a _; rfl
  | cons y ys ih =>
    intro a h
    have hy : min a y = a := min_eq_left (h y (List.mem_cons_self _ _))
    simp only [List.foldl_cons, hy]
    exact ih a (fun z hz => h z (List.mem_cons_of_mem _ hz))

theorem foldl_max_eq (l : List Nat) :
    ∀ a b : Nat, a ≤ b → (a = b ∨ b ∈ l) → (∀ y ∈ l, y ≤ b) →
      l.foldl max a = b := by
  induction l with
  | nil =>
    intro a b _ hmem _
    rcases hmem with rfl | hb
    · rfl
    · cases hb
  | cons y ys ih =>
    intro a b hab hmem hub
    simp only [List.foldl_cons]
    have hyb : y ≤ b := hub y (List.mem_cons_self _ _)
    have hub' : ∀ z ∈ ys, z ≤ b := fun z hz => hub z (List.mem_cons_of_mem _ hz)
    rcases hmem with rfl | hb
    · rw [max_eq_left hyb]
      exact ih a a (le_refl a) (Or.inl rfl) hub'
    · rcases List.mem_cons.mp hb with rfl | hb'
      · rw [max_eq_right hab]
        exact ih b b (le_refl b) (Or.inl rfl) hub'
      · exact ih (max a y) b (max_le hab hyb) (Or.inr hb') hub'

theorem minL_range' (i n : Nat) (h : 0 < n) : minL (List.range' i n) = i := by
  obtain ⟨m, rfl⟩ := Nat.exists_eq_add_of_lt h
  rw [Nat.zero_add, List.range'_succ]
  refine foldl_min_of_le _ i (fun y hy => ?_)
  have := (List.mem_range'_1.mp hy).1
  omega

theorem maxL_range' (i n : Nat) (h : 0 < n) :
    maxL (List.range' i n) = i + n - 1 := by
  obtain ⟨m, rfl⟩ := Nat.exists_eq_add_of_lt h
  rw [Nat.zero_add, List.range'_succ]
  show (List.range' (i + 1) m).foldl max i = i + (m + 1) - 1
  have : i + (m + 1) - 1 = i + m := by omega
  rw [this]
  refine foldl_max_eq _ i (i + m) (Nat.le_add_right _ _) ?_ ?_
  · cases m with
    | zero => exact Or.inl rfl
    | succ m' =>
      refine Or.inr (List.mem_range'_1.mpr ⟨by omega, by omega⟩)
  · intro y hy
    have := (List.mem_range'_1.mp hy).2
    omega

/-- C6: for a non-empty choice of active levels, the check at lines 249-252
does not abort exactly when the chosen levels, in the order chosen, form a
contiguous ascending run of the canonical ordering `Class..Species` (their
canonical indices are `[i, i+1, ..., i+n-1]` for some `i`); otherwise the
program aborts with a message before building the tree. -/
theorem contiguity_abort_iff (active : List Level) (h : active ≠ []) :
    contiguity_abort active = false ↔
      ∃ i n, 0 < n ∧ active.map levelIdx = List.range' i n := by
  have hidx : active.map levelIdx ≠ [] := by simpa using h
  simp only [contiguity_abort, hidx, not_false_iff, decide_True, Bool.true_and,
    decide_eq_false_iff_not, not_not]
  constructor
  · intro heq
    refine ⟨minL (active.map levelIdx),
      maxL (active.map levelIdx) + 1 - minL (active.map levelIdx), ?_, heq⟩
    by_contra hn
    have h0 : maxL (active.map levelIdx) + 1 - minL (active.map levelIdx) = 0 := by
      omega
    rw [h0] at heq
    exact hidx (by simpa using heq)
  · rintro ⟨i, n, hn, heq⟩
    rw [heq, minL_range' i n hn, maxL_range' i n hn]
    congr 1
    omega

/-- Witness for C6: `[Genus, Species]` is a contiguous ascending run, and
the check lets it through. -/
theorem contiguity_abort_iff_witness :
    ([Level.Genus, Level.Species] : List Level) ≠ [] ∧
      (contiguity_abort [Level.Genus, Level.Species] = false ↔
        ∃ i n, 0 < n ∧
          ([Level.Genus, Level.Species] : List Level).map levelIdx =
            List.range' i n) :=
  ⟨by decide, contiguity_abort_iff _ (by decide)⟩

/-! ## Monotonicity of the tree builder state -/

/-- One graph state extends another: both lists grow only by appending. -/
def GExt (s t : GState) : Prop := s.nodes <+: t.nodes ∧ s.edges <+: t.edges

theorem gext_refl (s : GState) : GExt s s :=
  ⟨List.prefix_refl _, List.prefix_refl _⟩

theorem GExt.trans {s t u : GState} (h1 : GExt s t) (h2 : GExt t u) :
    GExt s u :=
  ⟨h1.1.trans h2.1, h1.2.trans h2.2⟩

theorem GExt.mem_nodes {s t : GState} (h : GExt s t) {x : Level × String}
    (hx : x ∈ s.nodes) : x ∈ t.nodes :=
  h.1.subset hx

theorem GExt.mem_edges {s t : GState} (h : GExt s t)
    {e : (Level × String) × (Level × String)} (hx : e ∈ s.edges) :
    e ∈ t.edges :=
  h.2.subset hx

/-- The `drawn_nodes` check-and-insert of lines 289-305, as used inside
`add_item_step`. -/
theorem gext_nodeAdd (s : GState) (nid : Level × String) :
    GExt s (if nid ∈ s.nodes then s else ⟨s.nodes ++ [nid], s.edges⟩) := by
  by_cases h : nid ∈ s.nodes
  · rw [if_pos h]; exact gext_refl s
  · rw [if_neg h]; exact ⟨⟨[nid], rfl⟩, List.prefix_refl _⟩

theorem gext_addEdgesFrom (nid : Level × String) (next : Level)
    (ws : List String) (s : GState) : GExt s (addEdgesFrom nid next ws s) :=
  ⟨List.prefix_refl _, ⟨_, rfl⟩⟩

theorem mem_nodeAdd {s : GState} {nid x : Level × String} :
    x ∈ (if nid ∈ s.nodes then s else
          (⟨s.nodes ++ [nid], s.edges⟩ : GState)).nodes ↔
      x ∈ s.nodes ∨ x = nid := by
  by_cases h : nid ∈ s.nodes
  · rw [if_pos h]
    exact ⟨Or.inl, fun hx => by rcases hx with hx | rfl; exact hx; exact h⟩
  · rw [if_neg h]
    simp

theorem edges_nodeAdd {s : GState} {nid : Level × String} :
    (if nid ∈ s.nodes then s else
      (⟨s.nodes ++ [nid], s.edges⟩ : GState)).edges = s.edges := by
  by_cases h : nid ∈ s.nodes
  · rw [if_pos h]
  · rw [if_neg h]

theorem nodes_addEdgesFrom (nid : Level × String) (next : Level)
    (ws : List String) (s : GState) :
    (addEdgesFrom nid next ws s).nodes = s.nodes := rfl

theorem add_item_step_gext (sel : Sel) (lvl : Level) (rest : List Level)
    (recur : List Row → GState → GState)
    (hrec : ∀ c t, GExt t (recur c t)) (item : String) (current : List Row)
    (s : GState) : GExt s (add_item_step sel lvl rest recur item current s) := by
  have h1 := gext_nodeAdd s (lvl, item)
  cases rest with
  | nil => simpa [add_item_step] using h1
  | cons next rest' =>
    simp only [add_item_step]
    by_cases hsel : sel next = []
    · rw [if_pos hsel]
      exact h1.trans ((gext_addEdgesFrom _ _ _ _).trans (hrec _ _))
    · rw [if_neg hsel]
      by_cases hemp : (current.filter (fun r =>
          decide (col lvl r = item) &&
            decide (filterVal next r ∈ sel next))).isEmpty
      · rw [if_pos hemp]; exact h1
      · rw [if_neg hemp]
        exact h1.trans ((gext_addEdgesFrom _ _ _ _).trans (hrec _ _))

theorem add_items_gext (sel : Sel) (lvl : Level) (rest : List Level)
    (recur : List Row → GState → GState)
    (hrec : ∀ c t, GExt t (recur c t)) :
    ∀ (items : List String) (current : List Row) (s : GState),
      GExt s (add_items sel lvl rest recur items current s) := by
  intro items
  induction items with
  | nil => intro current s; exact gext_refl s
  | cons item more ih =>
    intro current s
    exact (add_item_step_gext sel lvl rest recur hrec item current s).trans
      (ih current _)

theorem add_branch_nil (sel : Sel) (df : List Row) (s : GState) :
    add_branch sel [] df s = s := rfl

theorem add_branch_cons (sel : Sel) (lvl : Level) (rest : List Level)
    (df : List Row) (s : GState) :
    add_branch sel (lvl :: rest) df s =
      add_items sel lvl rest (fun c t => add_branch sel rest c t)
        (colItems df lvl) df s := rfl

theorem add_branch_gext (sel : Sel) :
    ∀ (levels : List Level) (df : List Row) (s : GState),
      GExt s (add_branch sel levels df s) := by
  intro levels
  induction levels with
  | nil => intro df s; exact gext_refl s
  | cons lvl rest ih =>
    intro df s
    rw [add_branch_cons]
    exact add_items_gext sel lvl rest _ (fun c t => ih c t) (colItems df lvl)
      df s

/-! ## Soundness: where nodes and edges can come from -/

theorem add_items_cons (sel : Sel) (lvl : Level) (rest : List Level)
    (recur : List Row → GState → GState) (item : String)
    (more : List String) (current : List Row) (s : GState) :
    add_items sel lvl rest recur (item :: more) current s =
      add_items sel lvl rest recur more current
        (add_item_step sel lvl rest recur item current s) := rfl

theorem edges_addEdgesFrom (nid : Level × String) (next : Level)
    (ws : List String) (t : GState) :
    (addEdgesFrom nid next ws t).edges =
      t.edges ++ ws.map (fun w => (nid, (next, w))) := rfl

theorem add_item_step_nodes_sub (sel : Sel) (lvl : Level) (rest : List Level)
    (recur : List Row → GState → GState)
    (hrec : ∀ c t x, x ∈ (recur c t).nodes →
      x ∈ t.nodes ∨ (x.1 ∈ rest ∧ ∃ r ∈ c, col x.1 r = x.2))
    (item : String) (current : List Row) (s : GState)
    (hitem : ∃ r ∈ current, col lvl r = item) (x : Level × String)
    (hx : x ∈ (add_item_step sel lvl rest recur item current s).nodes) :
    x ∈ s.nodes ∨ (x.1 = lvl ∧ ∃ r ∈ current, col lvl r = x.2) ∨
      (x.1 ∈ rest ∧ ∃ r ∈ current, col x.1 r = x.2) := by
  cases rest with
  | nil =>
    simp only [add_item_step] at hx
    rcases mem_nodeAdd.mp hx with h | rfl
    · exact Or.inl h
    · exact Or.inr (Or.inl ⟨rfl, hitem⟩)
  | cons next rest' =>
    simp only [add_item_step] at hx
    have main : ∀ (child : List Row), (∀ z ∈ child, z ∈ current) →
        x ∈ (recur child (addEdgesFrom (lvl, item) next (colItems child next)
          (if (lvl, item) ∈ s.nodes then s else
            ⟨s.nodes ++ [(lvl, item)], s.edges⟩))).nodes →
        x ∈ s.nodes ∨ (x.1 = lvl ∧ ∃ r ∈ current, col lvl r = x.2) ∨
          (x.1 ∈ rest' ∧ ∃ r ∈ current, col x.1 r = x.2) ∨
          (x.1 = next ∧ ∃ r ∈ current, col next r = x.2) := by
      intro child hchild hmem
      rcases hrec _ _ x hmem with h | ⟨h1, r, hr, hcol⟩
      · rw [nodes_addEdgesFrom] at h
        rcases mem_nodeAdd.mp h with h' | rfl
        · exact Or.inl h'
        · exact Or.inr (Or.inl ⟨rfl, hitem⟩)
      · rcases List.mem_cons.mp h1 with h1' | h1'
        · exact Or.inr (Or.inr (Or.inr
            ⟨h1', ⟨r, hchild r hr, by rw [← h1']; exact hcol⟩⟩))
        · exact Or.inr (Or.inr (Or.inl ⟨h1', r, hchild r hr, hcol⟩))
    have reassemble : x ∈ s.nodes ∨ (x.1 = lvl ∧ ∃ r ∈ current, col lvl r = x.2) ∨
        (x.1 ∈ rest' ∧ ∃ r ∈ current, col x.1 r = x.2) ∨
        (x.1 = next ∧ ∃ r ∈ current, col next r = x.2) →
        x ∈ s.nodes ∨ (x.1 = lvl ∧ ∃ r ∈ current, col lvl r = x.2) ∨
          (x.1 ∈ next :: rest' ∧ ∃ r ∈ current, col x.1 r = x.2) := by
      rintro (h | h | ⟨h1, h2⟩ | ⟨h1, h2⟩)
      · exact Or.inl h
      · exact Or.inr (Or.inl h)
      · exact Or.inr (Or.inr ⟨List.mem_cons_of_mem _ h1, h2⟩)
      · refine Or.inr (Or.inr ⟨by rw [h1]; exact List.mem_cons_self _ _, ?_⟩)
        rw [h1]; exact h2
    by_cases hsel : sel next = []
    · rw [if_pos hsel] at hx
      exact reassemble (main _ (fun z hz => List.mem_of_mem_filter hz) hx)
    · rw [if_neg hsel] at hx
      by_cases hemp : (current.filter (fun r =>
          decide (col lvl r = item) &&
            decide (filterVal next r ∈ sel next))).isEmpty
      · rw [if_pos hemp] at hx
        rcases mem_nodeAdd.mp hx with h | rfl
        · exact Or.inl h
        · exact Or.inr (Or.inl ⟨rfl, hitem⟩)
      · rw [if_neg hemp] at hx
        exact reassemble (main _ (fun z hz => List.mem_of_mem_filter hz) hx)

theorem add_items_nodes_sub (sel : Sel) (lvl : Level) (rest : List Level)
    (recur : List Row → GState → GState)
    (hrec : ∀ c t x, x ∈ (recur c t).nodes →
      x ∈ t.nodes ∨ (x.1 ∈ rest ∧ ∃ r ∈ c, col x.1 r = x.2)) :
    ∀ (items : List String) (current : List Row) (s : GState)
      (x : Level × String),
      (∀ v ∈ items, ∃ r ∈ current, col lvl r = v) →
      x ∈ (add_items sel lvl rest recur items current s).nodes →
      x ∈ s.nodes ∨ (x.1 = lvl ∧ ∃ r ∈ current, col lvl r = x.2) ∨
        (x.1 ∈ rest ∧ ∃ r ∈ current, col x.1 r = x.2) := by
  intro items
  induction items with
  | nil => intro current s x _ hx; exact Or.inl hx
  | cons item more ih =>
    intro current s x hitems hx
    rw [add_items_cons] at hx
    rcases ih current _ x (fun v hv => hitems v (List.mem_cons_of_mem _ hv))
        hx with h | h
    · exact add_item_step_nodes_sub sel lvl rest recur hrec item current s
        (hitems item (List.mem_cons_self _ _)) x h
    · exact Or.inr h

theorem add_branch_nodes_sub (sel : Sel) :
    ∀ (levels : List Level) (df : List Row) (s : GState) (x : Level × String),
      x ∈ (add_branch sel levels df s).nodes →
      x ∈ s.nodes ∨ (x.1 ∈ levels ∧ ∃ r ∈ df, col x.1 r = x.2) := by
  intro levels
  induction levels with
  | nil => intro df s x hx; exact Or.inl hx
  | cons lvl rest ih =>
    intro df s x hx
    rw [add_branch_cons] at hx
    rcases add_items_nodes_sub sel lvl rest _ (fun c t x hx => ih c t x hx)
        (colItems df lvl) df s x (fun v hv => mem_colItems.mp hv) hx with
      h | ⟨h1, h2⟩ | ⟨h1, h2⟩
    · exact Or.inl h
    · refine Or.inr ⟨by rw [h1]; exact List.mem_cons_self _ _, ?_⟩
      rw [h1]; exact h2
    · exact Or.inr ⟨List.mem_cons_of_mem _ h1, h2⟩

/-- An edge allowed at a list of levels: its endpoints sit at two adjacent
chosen levels, and some row of the walked table carries both endpoint
values. -/
def EdgeFrom (levels : List Level) (df : List Row)
    (e : (Level × String) × (Level × String)) : Prop :=
  [e.1.1, e.2.1] <:+: levels ∧
    ∃ r ∈ df, col e.1.1 r = e.1.2 ∧ col e.2.1 r = e.2.2

theorem EdgeFrom.mono_levels {levels : List Level} {df : List Row}
    {e : (Level × String) × (Level × String)} (lvl : Level)
    (h : EdgeFrom levels df e) : EdgeFrom (lvl :: levels) df e := by
  obtain ⟨⟨u, v, huv⟩, hr⟩ := h
  exact ⟨⟨lvl :: u, v, by rw [← huv]; rfl⟩, hr⟩

theorem EdgeFrom.mono_rows {levels : List Level} {df c : List Row}
    {e : (Level × String) × (Level × String)}
    (hsub : ∀ z ∈ c, z ∈ df) (h : EdgeFrom levels c e) :
    EdgeFrom levels df e := by
  obtain ⟨hinf, r, hr, hcols⟩ := h
  exact ⟨hinf, r, hsub r hr, hcols⟩

theorem add_item_step_edges_sub (sel : Sel) (lvl : Level) (rest : List Level)
    (recur : List Row → GState → GState)
    (hrec : ∀ c t e, e ∈ (recur c t).edges → e ∈ t.edges ∨ EdgeFrom rest c e)
    (item : String) (current : List Row) (s : GState)
    (e : (Level × String) × (Level × String))
    (hx : e ∈ (add_item_step sel lvl rest recur item current s).edges) :
    e ∈ s.edges ∨ EdgeFrom (lvl :: rest) current e := by
  cases rest with
  | nil =>
    simp only [add_item_step] at hx
    rw [edges_nodeAdd] at hx
    exact Or.inl hx
  | cons next rest' =>
    simp only [add_item_step] at hx
    have main : ∀ (child : List Row),
        (∀ z ∈ child, z ∈ current ∧ col lvl z = item) →
        e ∈ (recur child (addEdgesFrom (lvl, item) next (colItems child next)
          (if (lvl, item) ∈ s.nodes then s else
            ⟨s.nodes ++ [(lvl, item)], s.edges⟩))).edges →
        e ∈ s.edges ∨ EdgeFrom (lvl :: next :: rest') current e := by
      intro child hchild hmem
      rcases hrec _ _ e hmem with h | h
      · rw [edges_addEdgesFrom, edges_nodeAdd] at h
        rcases List.mem_append.mp h with h' | h'
        · exact Or.inl h'
        · obtain ⟨w, hw, rfl⟩ := List.mem_map.mp h'
          obtain ⟨r, hr, hcol⟩ := mem_colItems.mp hw
          exact Or.inr ⟨⟨[], rest', rfl⟩, r, (hchild r hr).1,
            (hchild r hr).2, hcol⟩
      · exact Or.inr ((h.mono_rows (fun z hz => (hchild z hz).1)).mono_levels lvl)
    by_cases hsel : sel next = []
    · rw [if_pos hsel] at hx
      refine main _ (fun z hz => ⟨List.mem_of_mem_filter hz, ?_⟩) hx
      have := (List.mem_filter.mp hz).2
      simpa using this
    · rw [if_neg hsel] at hx
      by_cases hemp : (current.filter (fun r =>
          decide (col lvl r = item) &&
            decide (filterVal next r ∈ sel next))).isEmpty
      · rw [if_pos hemp] at hx
        rw [edges_nodeAdd] at hx
        exact Or.inl hx
      · rw [if_neg hemp] at hx
        refine main _ (fun z hz => ⟨List.mem_of_mem_filter hz, ?_⟩) hx
        have := (List.mem_filter.mp hz).2
        simp at this
        exact this.1

theorem add_items_edges_sub (sel : Sel) (lvl : Level) (rest : List Level)
    (recur : List Row → GState → GState)
    (hrec : ∀ c t e, e ∈ (recur c t).edges → e ∈ t.edges ∨ EdgeFrom rest c e) :
    ∀ (items : List String) (current : List Row) (s : GState)
      (e : (Level × String) × (Level × String)),
      e ∈ (add_items sel lvl rest recur items current s).edges →
      e ∈ s.edges ∨ EdgeFrom (lvl :: rest) current e := by
  intro items
  induction items with
  | nil => intro current s e hx; exact Or.inl hx
  | cons item more ih =>
    intro current s e hx
    rw [add_items_cons] at hx
    rcases ih current _ e hx with h | h
    · exact add_item_step_edges_sub sel lvl rest recur hrec item current s e h
    · exact Or.inr h

theorem add_branch_edges_sub (sel : Sel) :
    ∀ (levels : List Level) (df : List Row) (s : GState)
      (e : (Level × String) × (Level × String)),
      e ∈ (add_branch sel levels df s).edges →
      e ∈ s.edges ∨ EdgeFrom levels df e := by
  intro levels
  induction levels with
  | nil => intro df s e hx; exact Or.inl hx
  | cons lvl rest ih =>
    intro df s e hx
    rw [add_branch_cons] at hx
    exact add_items_edges_sub sel lvl rest _ (fun c t e hx => ih c t e hx)
      (colItems df lvl) df s e hx

/-! ## Completeness: rows reach their nodes and edges -/

/-- A selection state prunes nothing on a table: at every level the
selection is either empty or satisfied by every row of the table.  This is
what `apply_filters` guarantees for its output when selections exist at no
level below the topmost selected one. -/
def Unpruned (sel : Sel) (df : List Row) : Prop :=
  ∀ l, sel l = [] ∨ ∀ r ∈ df, filterVal l r ∈ sel l

theorem Unpruned.mono {sel : Sel} {df c : List Row} (h : Unpruned sel df)
    (hsub : ∀ z ∈ c, z ∈ df) : Unpruned sel c := fun l =>
  (h l).imp id (fun hh r hr => hh r (hsub r hr))

theorem add_item_step_node_self (sel : Sel) (lvl : Level) (rest : List Level)
    (recur : List Row → GState → GState)
    (hrec : ∀ c t, GExt t (recur c t)) (item : String) (current : List Row)
    (s : GState) :
    (lvl, item) ∈ (add_item_step sel lvl rest recur item current s).nodes := by
  have h1 : (lvl, item) ∈ (if (lvl, item) ∈ s.nodes then s else
      (⟨s.nodes ++ [(lvl, item)], s.edges⟩ : GState)).nodes :=
    mem_nodeAdd.mpr (Or.inr rfl)
  cases rest with
  | nil => simpa [add_item_step] using h1
  | cons next rest' =>
    simp only [add_item_step]
    by_cases hsel : sel next = []
    · rw [if_pos hsel]
      exact (hrec _ _).mem_nodes h1
    · rw [if_neg hsel]
      by_cases hemp : (current.filter (fun r =>
          decide (col lvl r = item) &&
            decide (filterVal next r ∈ sel next))).isEmpty
      · rw [if_pos hemp]; exact h1
      · rw [if_neg hemp]
        exact (hrec _ _).mem_nodes h1

theorem add_items_node_mem (sel : Sel) (lvl : Level) (rest : List Level)
    (recur : List Row → GState → GState)
    (hrec : ∀ c t, GExt t (recur c t)) :
    ∀ (items : List String) (current : List Row) (s : GState) (item : String),
      item ∈ items →
      (lvl, item) ∈ (add_items sel lvl rest recur items current s).nodes := by
  intro items
  induction items with
  | nil => intro current s item h; cases h
  | cons item' more ih =>
    intro current s item hmem
    rw [add_items_cons]
    rcases List.mem_cons.mp hmem with rfl | hmem'
    · exact (add_items_gext sel lvl rest recur hrec more current _).mem_nodes
        (add_item_step_node_self sel lvl rest recur hrec item current s)
    · exact ih current _ item hmem'

/-- The workhorse for completeness: if a row `r` of `current` has its value
at this level among the items, and `r` survives the next level's selection,
then whatever `P` the recursive call establishes on `r`'s group — provided
`P` survives state extension — holds of the final state. -/
theorem add_items_reach (sel : Sel) (lvl : Level) (next : Level)
    (rest' : List Level) (recur : List Row → GState → GState)
    (hrec : ∀ c t, GExt t (recur c t))
    (P : GState → Prop)
    (hPmono : ∀ s t, GExt s t → P s → P t)
    (current : List Row) (r : Row) (hr : r ∈ current)
    (hselr : sel next = [] ∨ filterVal next r ∈ sel next)
    (hP : ∀ (child : List Row) (s' : GState), r ∈ child →
      (∀ z ∈ child, z ∈ current) →
      P (recur child (addEdgesFrom (lvl, col lvl r) next (colItems child next)
          s'))) :
    ∀ (items : List String) (s : GState), col lvl r ∈ items →
      P (add_items sel lvl (next :: rest') recur items current s) := by
  intro items
  induction items with
  | nil => intro s h; cases h
  | cons item more ih =>
    intro s hmem
    rw [add_items_cons]
    by_cases hitem : item = col lvl r
    · subst hitem
      refine hPmono _ _
        (add_items_gext sel lvl (next :: rest') recur hrec more current _) ?_
      simp only [add_item_step]
      by_cases hsel : sel next = []
      · rw [if_pos hsel]
        refine hP _ _ ?_ (fun z hz => List.mem_of_mem_filter hz)
        exact List.mem_filter.mpr ⟨hr, by simp⟩
      · rw [if_neg hsel]
        have hfv : filterVal next r ∈ sel next := hselr.resolve_left hsel
        have hrc : r ∈ current.filter (fun z =>
            decide (col lvl z = col lvl r) &&
              decide (filterVal next z ∈ sel next)) := by
          exact List.mem_filter.mpr ⟨hr, by simp [hfv]⟩
        have hne : ¬(current.filter (fun z =>
            decide (col lvl z = col lvl r) &&
              decide (filterVal next z ∈ sel next))).isEmpty = true := by
          simp only [List.isEmpty_iff]
          intro hcontra
          rw [hcontra] at hrc
          cases hrc
        rw [if_neg hne]
        exact hP _ _ hrc (fun z hz => List.mem_of_mem_filter hz)
    · have hmem' : col lvl r ∈ more := by
        rcases List.mem_cons.mp hmem with h | h
        · exact absurd h.symm hitem
        · exact h
      exact ih _ hmem'

theorem add_branch_node_complete (sel : Sel) :
    ∀ (levels : List Level) (df : List Row) (s : GState) (r : Row) (l : Level),
      Unpruned sel df → r ∈ df → l ∈ levels →
      (l, col l r) ∈ (add_branch sel levels df s).nodes := by
  intro levels
  induction levels with
  | nil => intro df s r l _ _ h; cases h
  | cons lvl rest ih =>
    intro df s r l hU hr hl
    rw [add_branch_cons]
    have hrec : ∀ c t, GExt t (add_branch sel rest c t) :=
      fun c t => add_branch_gext sel rest c t
    rcases List.mem_cons.mp hl with rfl | hl'
    · exact add_items_node_mem sel l rest _ hrec (colItems df l) df s
        (col l r) (mem_colItems.mpr ⟨r, hr, rfl⟩)
    · cases rest with
      | nil => cases hl'
      | cons next rest' =>
        refine add_items_reach sel lvl next rest' _ hrec
          (fun t => (l, col l r) ∈ t.nodes)
          (fun u t hext hmem => hext.mem_nodes hmem) df r hr
          ((hU next).imp id (fun h => h r hr))
          (fun child s' hrc hsub => ?_) (colItems df lvl) s
          (mem_colItems.mpr ⟨r, hr, rfl⟩)
        exact ih child _ r l (hU.mono hsub) hrc hl'

theorem add_branch_edge_complete (sel : Sel) (a b : Level) :
    ∀ (pre post : List Level) (df : List Row) (s : GState) (r : Row),
      Unpruned sel df → r ∈ df →
      ((a, col a r), (b, col b r)) ∈
        (add_branch sel (pre ++ a :: b :: post) df s).edges := by
  intro pre
  induction pre with
  | nil =>
    intro post df s r hU hr
    rw [List.nil_append, add_branch_cons]
    refine add_items_reach sel a b post _
      (fun c t => add_branch_gext sel (b :: post) c t)
      (fun t => ((a, col a r), (b, col b r)) ∈ t.edges)
      (fun u t hext hmem => hext.mem_edges hmem) df r hr
      ((hU b).imp id (fun h => h r hr))
      (fun child s' hrc hsub => ?_) (colItems df a) s
      (mem_colItems.mpr ⟨r, hr, rfl⟩)
    refine (add_branch_gext sel (b :: post) child _).mem_edges ?_
    rw [edges_addEdgesFrom]
    refine List.mem_append_right _ ?_
    exact List.mem_map.mpr ⟨col b r, mem_colItems.mpr ⟨r, hrc, rfl⟩, rfl⟩
  | cons p pre' ih =>
    intro post df s r hU hr
    rw [List.cons_append, add_branch_cons]
    cases hq : pre' ++ a :: b :: post with
    | nil => exact absurd hq (by simp)
    | cons next rest'' =>
      refine add_items_reach sel p next rest''
        (fun c t => add_branch sel (next :: rest'') c t)
        (fun c t => add_branch_gext sel (next :: rest'') c t)
        (fun t => ((a, col a r), (b, col b r)) ∈ t.edges)
        (fun u t hext hmem => hext.mem_edges hmem) df r hr
        ((hU next).imp id (fun h => h r hr))
        (fun child s' hrc hsub => ?_) (colItems df p) s
        (mem_colItems.mpr ⟨r, hr, rfl⟩)
      rw [← hq]
      exact ih post child _ r (hU.mono hsub) hrc

/-! ## No node is drawn twice -/

theorem nodup_nodeAdd {s : GState} {nid : Level × String}
    (h : s.nodes.Nodup) :
    (if nid ∈ s.nodes then s else
      (⟨s.nodes ++ [nid], s.edges⟩ : GState)).nodes.Nodup := by
  by_cases hmem : nid ∈ s.nodes
  · rw [if_pos hmem]; exact h
  · rw [if_neg hmem]
    simp [List.nodup_append, h, hmem]

theorem add_item_step_nodup (sel : Sel) (lvl : Level) (rest : List Level)
    (recur : List Row → GState → GState)
    (hrec : ∀ c t, t.nodes.Nodup → (recur c t).nodes.Nodup)
    (item : String) (current : List Row) (s : GState)
    (h : s.nodes.Nodup) :
    (add_item_step sel lvl rest recur item current s).nodes.Nodup := by
  have h1 := @nodup_nodeAdd s (lvl, item) h
  cases rest with
  | nil => simpa [add_item_step] using h1
  | cons next rest' =>
    simp only [add_item_step]
    by_cases hsel : sel next = []
    · rw [if_pos hsel]
      exact hrec _ _ (by rwa [nodes_addEdgesFrom])
    · rw [if_neg hsel]
      by_cases hemp : (current.filter (fun r =>
          decide (col lvl r = item) &&
            decide (filterVal next r ∈ sel next))).isEmpty
      · rw [if_pos hemp]; exact h1
      · rw [if_neg hemp]
        exact hrec _ _ (by rwa [nodes_addEdgesFrom])

theorem add_items_nodup (sel : Sel) (lvl : Level) (rest : List Level)
    (recur : List Row → GState → GState)
    (hrec : ∀ c t, t.nodes.Nodup → (recur c t).nodes.Nodup) :
    ∀ (items : List String) (current : List Row) (s : GState),
      s.nodes.Nodup →
      (add_items sel lvl rest recur items current s).nodes.Nodup := by
  intro items
  induction items with
  | nil => intro current s h; exact h
  | cons item more ih =>
    intro current s h
    rw [add_items_cons]
    exact ih current _ (add_item_step_nodup sel lvl rest recur hrec item
      current s h)

theorem add_branch_nodup (sel : Sel) :
    ∀ (levels : List Level) (df : List Row) (s : GState),
      s.nodes.Nodup → (add_branch sel levels df s).nodes.Nodup := by
  intro levels
  induction levels with
  | nil => intro df s h; exact h
  | cons lvl rest ih =>
    intro df s h
    rw [add_branch_cons]
    exact add_items_nodup sel lvl rest _ (fun c t ht => ih c t ht)
      (colItems df lvl) df s h

/-! ## C9: edges connect adjacent active levels -/

/-- C9: in every built tree, every edge connects a node at some active
level `i` to a node at active level `i + 1` — a parent to its immediate
child level, never skipping a level. -/
theorem build_edges_adjacent (sel : Sel) (df : List Row)
    (active : List Level) (title : String)
    (e : (Level × String) × (Level × String))
    (he : e ∈ (build_horizontal_taxonomic_tree sel df active title).edges) :
    ∃ i : Nat, active[i]? = some e.1.1 ∧ active[i + 1]? = some e.2.1 := by
  rcases add_branch_edges_sub sel active df ⟨[], []⟩ e
      (by simpa [build_horizontal_taxonomic_tree] using he) with
    h | ⟨⟨u, v, huv⟩, -⟩
  · cases h
  · refine ⟨u.length, ?_, ?_⟩
    · rw [← huv, List.append_assoc,
        List.getElem?_append_right (le_refl u.length)]
      have h0 : u.length - u.length = 0 := by omega
      rw [h0]
      simp
    · rw [← huv, List.append_assoc,
        List.getElem?_append_right (Nat.le_add_right _ _)]
      have h1 : u.length + 1 - u.length = 1 := by omega
      rw [h1]
      simp

/-- Witness for C9 at a concrete table and level choice. -/
theorem build_edges_adjacent_witness :
    ((Level.Order, "O1"), (Level.Family, "F1")) ∈
      (build_horizontal_taxonomic_tree ((fun _ => []) : Sel)
        [⟨"C", "A", "O1", "F1", "G", "s1"⟩]
        [Level.Order, Level.Family] "t").edges ∧
    ∃ i : Nat,
      ([Level.Order, Level.Family] : List Level)[i]? = some Level.Order ∧
      ([Level.Order, Level.Family] : List Level)[i + 1]? =
        some Level.Family :=
  ⟨by decide,
    build_edges_adjacent ((fun _ => []) : Sel)
      [⟨"C", "A", "O1", "F1", "G", "s1"⟩] [Level.Order, Level.Family] "t"
      ((Level.Order, "O1"), (Level.Family, "F1")) (by decide)⟩

/-! ## C2: what the builder actually deduplicates on -/

/-- C2 counterexample: on the table with rows `(Order O1, Family F)` and
`(Order O2, Family F)` and chosen levels `[Order, Family]`, the builder
creates 3 nodes while there are 4 distinct path prefixes, because the two
rows share the `Family` value `F` but differ at `Order` and yet yield a
single `Family_F` node (node identifiers record only level and value, not
the path).  This refutes the claim that the builder creates one node per
distinct path prefix, with rows differing at an earlier level yielding
distinct nodes. -/
theorem tree_path_prefix_cex :
    ((build_horizontal_taxonomic_tree ((fun _ => []) : Sel)
        [⟨"C", "A", "O1", "F", "G", "s1"⟩, ⟨"C", "A", "O2", "F", "G", "s2"⟩]
        [Level.Order, Level.Family] "t").nodes.length = 3) ∧
    ((specPathPrefixes [Level.Order, Level.Family]
        [⟨"C", "A", "O1", "F", "G", "s1"⟩,
          ⟨"C", "A", "O2", "F", "G", "s2"⟩]).length = 4) ∧
    (((build_horizontal_taxonomic_tree ((fun _ => []) : Sel)
        [⟨"C", "A", "O1", "F", "G", "s1"⟩, ⟨"C", "A", "O2", "F", "G", "s2"⟩]
        [Level.Order, Level.Family] "t").nodes.filter
          (fun n => decide (n.1 = Level.Family))).length = 1) := by
  decide

/-- C2 (amended): with no selections, the tree builder creates exactly one
node per distinct `(level, value)` pair occurring in the table over the
chosen levels — rows sharing a value at a level yield the same node even
when they differ at an earlier level — and an edge from a node to a node
of the next chosen level exactly when some row carries both values. -/
theorem tree_builder_amended (sel : Sel) (levels : List Level) (df : List Row)
    (title : String) (hsel : ∀ l, sel l = []) :
    (∀ l v,
      (l, v) ∈ (build_horizontal_taxonomic_tree sel df levels title).nodes ↔
        l ∈ levels ∧ ∃ r ∈ df, col l r = v) ∧
    (build_horizontal_taxonomic_tree sel df levels title).nodes.Nodup ∧
    (∀ a v b w,
      ((a, v), (b, w)) ∈
          (build_horizontal_taxonomic_tree sel df levels title).edges ↔
        [a, b] <:+: levels ∧ ∃ r ∈ df, col a r = v ∧ col b r = w) := by
  have hU : Unpruned sel df := fun l => Or.inl (hsel l)
  refine ⟨fun l v => ⟨fun h => ?_, fun h => ?_⟩, ?_,
    fun a v b w => ⟨fun h => ?_, fun h => ?_⟩⟩
  · rcases add_branch_nodes_sub sel levels df ⟨[], []⟩ (l, v)
        (by simpa [build_horizontal_taxonomic_tree] using h) with h0 | ⟨h1, h2⟩
    · cases h0
    · exact ⟨h1, h2⟩
  · obtain ⟨hl, r, hr, hcol⟩ := h
    have := add_branch_node_complete sel levels df ⟨[], []⟩ r l hU hr hl
    rw [hcol] at this
    simpa [build_horizontal_taxonomic_tree] using this
  · have := add_branch_nodup sel levels df ⟨[], []⟩ List.nodup_nil
    simpa [build_horizontal_taxonomic_tree] using this
  · rcases add_branch_edges_sub sel levels df ⟨[], []⟩ ((a, v), (b, w))
        (by simpa [build_horizontal_taxonomic_tree] using h) with h0 | hEF
    · cases h0
    · exact ⟨hEF.1, hEF.2⟩
  · obtain ⟨⟨u, vv, huv⟩, r, hr, h1, h2⟩ := h
    have hlev : levels = u ++ a :: b :: vv := by
      rw [← huv, List.append_assoc]
      rfl
    rw [hlev]
    have := add_branch_edge_complete sel a b u vv df ⟨[], []⟩ r hU hr
    rw [h1, h2] at this
    simpa [build_horizontal_taxonomic_tree] using this

/-- Witness for the amended C2 at a concrete table. -/
theorem tree_builder_amended_witness :
    (∀ l v,
      (l, v) ∈ (build_horizontal_taxonomic_tree ((fun _ => []) : Sel)
          [⟨"C", "A", "O1", "F", "G", "s1"⟩,
            ⟨"C", "A", "O2", "F", "G", "s2"⟩]
          [Level.Order, Level.Family] "t").nodes ↔
        l ∈ [Level.Order, Level.Family] ∧
          ∃ r ∈ [(⟨"C", "A", "O1", "F", "G", "s1"⟩ : Row),
            ⟨"C", "A", "O2", "F", "G", "s2"⟩], col l r = v) ∧
    (build_horizontal_taxonomic_tree ((fun _ => []) : Sel)
        [⟨"C", "A", "O1", "F", "G", "s1"⟩, ⟨"C", "A", "O2", "F", "G", "s2"⟩]
        [Level.Order, Level.Family] "t").nodes.Nodup ∧
    (∀ a v b w,
      ((a, v), (b, w)) ∈
          (build_horizontal_taxonomic_tree ((fun _ => []) : Sel)
            [⟨"C", "A", "O1", "F", "G", "s1"⟩,
              ⟨"C", "A", "O2", "F", "G", "s2"⟩]
            [Level.Order, Level.Family] "t").edges ↔
        [a, b] <:+: [Level.Order, Level.Family] ∧
          ∃ r ∈ [(⟨"C", "A", "O1", "F", "G", "s1"⟩ : Row),
            ⟨"C", "A", "O2", "F", "G", "s2"⟩],
            col a r = v ∧ col b r = w) :=
  tree_builder_amended ((fun _ => []) : Sel) [Level.Order, Level.Family]
    [⟨"C", "A", "O1", "F", "G", "s1"⟩, ⟨"C", "A", "O2", "F", "G", "s2"⟩]
    "t" (by decide)

/-! ## C1: leaf nodes versus the filtered table -/

theorem applyFiltersFrom_mem_sel (sel : Sel) (df : List Row) (l : Level)
    (hl : sel l ≠ []) (hone : ∀ l', sel l' ≠ [] → l' = l) :
    ∀ ls : List Level, l ∈ ls → ∀ r ∈ applyFiltersFrom sel df ls,
      filterVal l r ∈ sel l := by
  intro ls
  induction ls with
  | nil => intro h; cases h
  | cons l' ls' ih =>
    intro hmem r hr
    simp only [applyFiltersFrom] at hr
    by_cases h' : sel l' = []
    · rw [if_pos h'] at hr
      have hne : l ≠ l' := fun heq => hl (by rw [heq]; exact h')
      have hmem' : l ∈ ls' := by
        rcases List.mem_cons.mp hmem with h | h
        · exact absurd h hne
        · exact h
      exact ih hmem' r hr
    · rw [if_neg h'] at hr
      have heq : l' = l := hone l' h'
      subst heq
      have := (List.mem_filter.mp hr).2
      simpa using this

/-- When selections exist at no level other than (at most) one, the table
returned by `apply_filters` satisfies every level's selection, so the
per-level pruning inside `add_branch` removes nothing further. -/
theorem unpruned_apply_filters_single (sel : Sel) (df : List Row)
    (hone : ∀ l₁ l₂, sel l₁ ≠ [] → sel l₂ ≠ [] → l₁ = l₂) :
    Unpruned sel (apply_filters sel df) := by
  intro l
  by_cases hl : sel l = []
  · exact Or.inl hl
  · right
    intro r hr
    have hmem : l ∈ LEVELS := by cases l <;> simp [LEVELS]
    exact applyFiltersFrom_mem_sel sel df l hl (fun l' h' => hone l' l h' hl)
      LEVELS hmem r hr

/-- C1 counterexample: with selections at two levels (`Class` and
`Species`), `apply_filters` filters only by `Class`, so its output holds
both species `s1` and `s2`; but the builder additionally prunes by the
`Species` selection while walking, so only `s1` becomes a leaf node.  The
set of leaf nodes is strictly smaller than the distinct deepest-level
values of the filtered table, refuting the claim for arbitrary
filter-selection states. -/
theorem leaf_nodes_cex :
    contiguity_abort LEVELS = false ∧
    "s2" ∈ (apply_filters
        ((fun l => match l with
          | Level.Class => ["C"]
          | Level.Species => ["G s1"]
          | _ => []) : Sel)
        [⟨"C", "A", "O", "F", "G", "s1"⟩,
          ⟨"C", "A", "O", "F", "G", "s2"⟩]).map (col Level.Species) ∧
    (Level.Species, "s2") ∉
      (build_horizontal_taxonomic_tree
        ((fun l => match l with
          | Level.Class => ["C"]
          | Level.Species => ["G s1"]
          | _ => []) : Sel)
        (apply_filters
          ((fun l => match l with
            | Level.Class => ["C"]
            | Level.Species => ["G s1"]
            | _ => []) : Sel)
          [⟨"C", "A", "O", "F", "G", "s1"⟩,
            ⟨"C", "A", "O", "F", "G", "s2"⟩])
        LEVELS "t").nodes := by
  decide

/-- C1 (amended): for a non-empty contiguous choice of active levels and a
selection state with selections at no more than one level, the leaf
(deepest active level) nodes of the tree built on the filtered table are
exactly the distinct values of that level in the filtered table.  (With
selections at two or more levels the builder prunes below the topmost one
and leaves can be missing, see the counterexample.) -/
theorem leaf_nodes_amended (sel : Sel) (df : List Row) (active : List Level)
    (title : String) (hne : active ≠ [])
    (hcontig : contiguity_abort active = false)
    (hone : ∀ l₁ l₂, sel l₁ ≠ [] → sel l₂ ≠ [] → l₁ = l₂) (v : String) :
    (active.getLast hne, v) ∈
        (build_horizontal_taxonomic_tree sel (apply_filters sel df) active
          title).nodes ↔
      ∃ r ∈ apply_filters sel df, col (active.getLast hne) r = v := by
  constructor
  · intro h
    rcases add_branch_nodes_sub sel active (apply_filters sel df) ⟨[], []⟩ _
        (by simpa [build_horizontal_taxonomic_tree] using h) with h0 | ⟨-, h2⟩
    · cases h0
    · exact h2
  · rintro ⟨r, hr, hcol⟩
    have hU := unpruned_apply_filters_single sel df hone
    have := add_branch_node_complete sel active (apply_filters sel df)
      ⟨[], []⟩ r (active.getLast hne) hU hr (List.getLast_mem hne)
    rw [hcol] at this
    simpa [build_horizontal_taxonomic_tree] using this

/-- Witness for the amended C1: one selection, at `Class` only. -/
theorem leaf_nodes_amended_witness :
    (Level.Species, "s1") ∈
        (build_horizontal_taxonomic_tree
          ((fun l => match l with | Level.Class => ["C"] | _ => []) : Sel)
          (apply_filters
            ((fun l => match l with | Level.Class => ["C"] | _ => []) : Sel)
            [⟨"C", "A", "O", "F", "G", "s1"⟩,
              ⟨"X", "A", "O", "F", "G", "s2"⟩])
          LEVELS "t").nodes ↔
      ∃ r ∈ apply_filters
          ((fun l => match l with | Level.Class => ["C"] | _ => []) : Sel)
          [⟨"C", "A", "O", "F", "G", "s1"⟩, ⟨"X", "A", "O", "F", "G", "s2"⟩],
        col Level.Species r = "s1" :=
  leaf_nodes_amended
    ((fun l => match l with | Level.Class => ["C"] | _ => []) : Sel)
    [⟨"C", "A", "O", "F", "G", "s1"⟩, ⟨"X", "A", "O", "F", "G", "s2"⟩]
    LEVELS "t" (by decide) (by decide) (by decide) "s1"

/-! ## C5: empty filtered results render nothing, with no notice -/

/-- C5 counterexample: a render is requested (`render_requested` and
`tree_valid` both set) and the filtered table is empty, yet the render
block produces silence — the `if not final_df.empty:` at line 431 has no
`else` branch — and silence is not the "no data" notice the specification
describes. -/
theorem render_no_notice_cex :
    apply_filters
        ((fun l => match l with | Level.Class => ["Nope"] | _ => []) : Sel)
        [⟨"C", "A", "O", "F", "G", "s1"⟩] = [] ∧
    render_block
        { chart_title := "t", active_levels := LEVELS,
          sel := (fun l => match l with | Level.Class => ["Nope"] | _ => []),
          allFlag := fun _ => false, render_requested := true,
          tree_valid := true, confirmed_large_tree := false }
        [⟨"C", "A", "O", "F", "G", "s1"⟩] = RenderOutcome.silence ∧
    RenderOutcome.silence ≠ RenderOutcome.noDataNotice := by
  decide

/-- C5 (amended): whenever the filtered table is empty, the render block
produces nothing at all for that request: no tree, no error, and also no
notice — the empty case is silently skipped. -/
theorem render_block_empty_silent (s : SState) (df : List Row)
    (h : apply_filters s.sel df = []) :
    render_block s df = RenderOutcome.silence := by
  simp [render_block, h]

/-- Witness for the amended C5 at a concrete state. -/
theorem render_block_empty_silent_witness :
    apply_filters
        (({ chart_title := "t", active_levels := LEVELS,
            sel := (fun l => match l with
              | Level.Class => ["Nope"] | _ => []),
            allFlag := fun _ => false, render_requested := true,
            tree_valid := true, confirmed_large_tree := false } : SState)).sel
        [⟨"C", "A", "O", "F", "G", "s1"⟩] = [] ∧
    render_block
        { chart_title := "t", active_levels := LEVELS,
          sel := (fun l => match l with | Level.Class => ["Nope"] | _ => []),
          allFlag := fun _ => false, render_requested := true,
          tree_valid := true, confirmed_large_tree := false }
        [⟨"C", "A", "O", "F", "G", "s1"⟩] = RenderOutcome.silence :=
  ⟨by decide,
    render_block_empty_silent
      { chart_title := "t", active_levels := LEVELS,
        sel := (fun l => match l with | Level.Class => ["Nope"] | _ => []),
        allFlag := fun _ => false, render_requested := true,
        tree_valid := true, confirmed_large_tree := false }
      [⟨"C", "A", "O", "F", "G", "s1"⟩] (by decide)⟩
